import Mathlib

/-!
# EduLift: the `users` collection set up by `mongodb-setup.js`

The script is declarative: one `db.createCollection("users", ...)` call carrying a
`$jsonSchema` validator, and six `db.users.createIndex(...)` calls.  The development
below transcribes that data keyword by keyword, gives the keywords the meaning the
storage engine gives them, and proves the properties the specification states about
the records the collection accepts.

Conventions of the model:
* a record is an ordered list of named fields; looking a name up returns its first
  occurrence;
* string length is counted in code points, as the engine does for `minLength` and
  `maxLength`;
* values are compared structurally.  The engine's comparison is coarser on numbers of
  different numeric types and on embedded objects; the verdict of this validator and
  the uniqueness check on `email` are the same under both, because every value they
  compare in a record that passes the `bsonType` checks is a string;
* the implicit `_id_` index and the console output of the script are left out.
-/

namespace EduLift

/-! ## BSON values -/

/-- The BSON types that `bsonType` can name. -/
inductive BsonType where
  | double | string | object | array | binData | undefined | objectId | bool | date
  | null | regex | dbPointer | javascript | symbol | javascriptWithScope | int
  | timestamp | long | decimal | minKey | maxKey
  deriving DecidableEq, Repr

/-- A BSON value.  Numbers, identifiers and binary payloads carry an uninterpreted
numeric payload; strings, arrays and embedded objects are structural. -/
inductive Bson where
  | double (bits : Nat)
  | string (s : String)
  | object (fields : List (String × Bson))
  | array (elems : List Bson)
  | binData (subtype : Nat) (bytes : List Nat)
  | undefined
  | objectId (id : Nat)
  | bool (b : Bool)
  | date (millis : Int)
  | null
  | regex (pattern : String) (options : String)
  | dbPointer (ns : String) (id : Nat)
  | javascript (code : String)
  | symbol (s : String)
  | javascriptWithScope (code : String) (scope : List (String × Bson))
  | int (n : Int)
  | timestamp (t : Nat)
  | long (n : Int)
  | decimal (bits : Nat)
  | minKey
  | maxKey

/-- A record (document): ordered named fields. -/
abbrev Document := List (String × Bson)

/-- The BSON type of a value. -/
def Bson.typeOf : Bson → BsonType
  | .double _ => .double
  | .string _ => .string
  | .object _ => .object
  | .array _ => .array
  | .binData _ _ => .binData
  | .undefined => .undefined
  | .objectId _ => .objectId
  | .bool _ => .bool
  | .date _ => .date
  | .null => .null
  | .regex _ _ => .regex
  | .dbPointer _ _ => .dbPointer
  | .javascript _ => .javascript
  | .symbol _ => .symbol
  | .javascriptWithScope _ _ => .javascriptWithScope
  | .int _ => .int
  | .timestamp _ => .timestamp
  | .long _ => .long
  | .decimal _ => .decimal
  | .minKey => .minKey
  | .maxKey => .maxKey

/-- Whether a value is an array. -/
def Bson.isArray : Bson → Bool
  | .array _ => true
  | _ => false

mutual
/-- Structural comparison of two values. -/
def Bson.same : Bson → Bson → Bool
  | .double a, w =>
      match w with
      | .double b => a == b
      | _ => false
  | .string a, w =>
      match w with
      | .string b => a == b
      | _ => false
  | .object xs, w =>
      match w with
      | .object ys => Bson.sameFields xs ys
      | _ => false
  | .array xs, w =>
      match w with
      | .array ys => Bson.sameList xs ys
      | _ => false
  | .binData s a, w =>
      match w with
      | .binData t b => s == t && a == b
      | _ => false
  | .undefined, w =>
      match w with
      | .undefined => true
      | _ => false
  | .objectId a, w =>
      match w with
      | .objectId b => a == b
      | _ => false
  | .bool a, w =>
      match w with
      | .bool b => a == b
      | _ => false
  | .date a, w =>
      match w with
      | .date b => a == b
      | _ => false
  | .null, w =>
      match w with
      | .null => true
      | _ => false
  | .regex p o, w =>
      match w with
      | .regex q r => p == q && o == r
      | _ => false
  | .dbPointer n a, w =>
      match w with
      | .dbPointer m b => n == m && a == b
      | _ => false
  | .javascript a, w =>
      match w with
      | .javascript b => a == b
      | _ => false
  | .symbol a, w =>
      match w with
      | .symbol b => a == b
      | _ => false
  | .javascriptWithScope c xs, w =>
      match w with
      | .javascriptWithScope d ys => c == d && Bson.sameFields xs ys
      | _ => false
  | .int a, w =>
      match w with
      | .int b => a == b
      | _ => false
  | .timestamp a, w =>
      match w with
      | .timestamp b => a == b
      | _ => false
  | .long a, w =>
      match w with
      | .long b => a == b
      | _ => false
  | .decimal a, w =>
      match w with
      | .decimal b => a == b
      | _ => false
  | .minKey, w =>
      match w with
      | .minKey => true
      | _ => false
  | .maxKey, w =>
      match w with
      | .maxKey => true
      | _ => false
/-- Structural comparison of two arrays, element by element. -/
def Bson.sameList : List Bson → List Bson → Bool
  | [], [] => true
  | x :: xs, y :: ys => Bson.same x y && Bson.sameList xs ys
  | _, _ => false
/-- Structural comparison of two field lists, field by field. -/
def Bson.sameFields : List (String × Bson) → List (String × Bson) → Bool
  | [], [] => true
  | (k, x) :: xs, (l, y) :: ys => k == l && Bson.same x y && Bson.sameFields xs ys
  | _, _ => false
end

/-- The value of the first field called `name`, if the record has one. -/
def lookup (name : String) : Document → Option Bson
  | [] => none
  | (k, v) :: rest => if k = name then some v else lookup name rest

/-- No two elements of the array compare equal. -/
def distinct : List Bson → Bool
  | [] => true
  | x :: xs => !(xs.any (Bson.same x)) && distinct xs

/-! ## The `$jsonSchema` keywords used by the script -/

/-- One keyword of a `$jsonSchema` object.  A schema is the list of its keywords. -/
inductive Keyword where
  | bsonType (t : BsonType)
  | title (text : String)
  | description (text : String)
  | required (names : List String)
  | properties (props : List (String × List Keyword))
  | minItems (n : Nat)
  | uniqueItems (b : Bool)
  | items (schema : List Keyword)
  | enum (values : List Bson)
  | minLength (n : Nat)
  | maxLength (n : Nat)

/-- A `$jsonSchema` object: the conjunction of its keywords. -/
abbrev Schema := List Keyword

mutual
/-- Whether a value satisfies one keyword.  A keyword that speaks about strings,
arrays or objects holds of every value of another type. -/
def holds : Keyword → Bson → Bool
  | .bsonType t, v => v.typeOf == t
  | .title _, _ => true
  | .description _, _ => true
  | .required names, v =>
      match v with
      | .object fs => names.all fun n => (lookup n fs).isSome
      | _ => true
  | .properties props, v =>
      match v with
      | .object fs => holdsProps props fs
      | _ => true
  | .minItems n, v =>
      match v with
      | .array xs => decide (n ≤ xs.length)
      | _ => true
  | .uniqueItems b, v =>
      match v with
      | .array xs => !b || distinct xs
      | _ => true
  | .items schema, v =>
      match v with
      | .array xs => xs.all fun x => holdsAll schema x
      | _ => true
  | .enum values, v => values.any fun e => Bson.same v e
  | .minLength n, v =>
      match v with
      | .string s => decide (n ≤ s.length)
      | _ => true
  | .maxLength n, v =>
      match v with
      | .string s => decide (s.length ≤ n)
      | _ => true
/-- Whether a value satisfies every keyword of a schema. -/
def holdsAll : List Keyword → Bson → Bool
  | [], _ => true
  | k :: ks, v => holds k v && holdsAll ks v
/-- Whether every declared property that is present in the record satisfies its
schema.  Absent properties and undeclared fields are not constrained. -/
def holdsProps : List (String × List Keyword) → Document → Bool
  | [], _ => true
  | (name, schema) :: props, fs =>
      (match lookup name fs with
        | none => true
        | some v => holdsAll schema v) && holdsProps props fs
end

/-- Whether a record satisfies a `$jsonSchema` validator. -/
def validates (schema : Schema) (doc : Document) : Bool :=
  holdsAll schema (.object doc)

/-! ## The script: the validator -/

/-- The four role names of `properties.roles.items.enum`. -/
def roleNames : List String := ["student", "mentor", "counselor", "admin"]

/-- The ten language codes of `properties.preferences.properties.language.enum`. -/
def languageCodes : List String :=
  ["en", "es", "fr", "de", "it", "pt", "zh", "ja", "ko", "ar"]

/-- The ten risk categories of `properties.riskFlags.items.enum`. -/
def riskCategories : List String :=
  [ "academic_risk",
    "behavioral_risk",
    "attendance_risk",
    "emotional_risk",
    "substance_risk",
    "family_risk",
    "financial_risk",
    "health_risk",
    "social_risk",
    "housing_risk" ]

/-- The schema of `properties.profile`. -/
def profileSchema : Schema :=
  [ .bsonType .object,
    .description "User profile information",
    .properties
      [ ("firstName", [.bsonType .string, .maxLength 50]),
        ("lastName", [.bsonType .string, .maxLength 50]),
        ("phoneNumber", [.bsonType .string]),
        ("dateOfBirth", [.bsonType .string]),
        ("address", [.bsonType .string, .maxLength 200]),
        ("emergencyContact", [.bsonType .string, .maxLength 100]),
        ("emergencyPhoneNumber", [.bsonType .string]),
        ("additionalInfo", [.bsonType .object]) ] ]

/-- The schema of `properties.consentFlags`. -/
def consentFlagsSchema : Schema :=
  [ .bsonType .object,
    .description "User consent information",
    .properties
      [ ("dataProcessingConsent", [.bsonType .bool]),
        ("communicationConsent", [.bsonType .bool]),
        ("emergencyContactConsent", [.bsonType .bool]),
        ("photoVideoConsent", [.bsonType .bool]),
        ("consentTimestamp", [.bsonType .date]) ] ]

/-- The schema of `properties.preferences`. -/
def preferencesSchema : Schema :=
  [ .bsonType .object,
    .description "User preferences",
    .properties
      [ ("language", [.bsonType .string, .enum (languageCodes.map Bson.string)]),
        ("timezone", [.bsonType .string, .maxLength 50]),
        ("emailNotifications", [.bsonType .bool]),
        ("smsNotifications", [.bsonType .bool]),
        ("pushNotifications", [.bsonType .bool]),
        ("customPreferences", [.bsonType .object]) ] ]

/-- The `$jsonSchema` object of the validator passed to `db.createCollection("users", ...)`. -/
def validator : Schema :=
  [ .bsonType .object,
    .title "User Schema Validation",
    .required ["roles", "email", "createdAt"],
    .properties
      [ ("_id", [.bsonType .objectId, .description "Unique identifier for the user"]),
        ("roles",
          [ .bsonType .array,
            .description "User roles - required field",
            .minItems 1,
            .uniqueItems true,
            .items [.bsonType .string, .enum (roleNames.map Bson.string)] ]),
        ("groupHomeId",
          [ .bsonType .string,
            .description "Group home identifier - indexed field",
            .minLength 1,
            .maxLength 100 ]),
        ("profile", profileSchema),
        ("consentFlags", consentFlagsSchema),
        ("preferences", preferencesSchema),
        ("riskFlags",
          [ .bsonType .array,
            .description "Array of risk indicators",
            .items [.bsonType .string, .enum (riskCategories.map Bson.string)] ]),
        ("createdAt", [.bsonType .date, .description "User creation timestamp - required field"]),
        ("email",
          [ .bsonType .string,
            .description "User email - unique indexed field",
            .maxLength 255 ]),
        ("username",
          [.bsonType .string, .description "Legacy field - username", .maxLength 50]),
        ("firstName",
          [.bsonType .string, .description "Legacy field - first name", .maxLength 50]),
        ("lastName",
          [.bsonType .string, .description "Legacy field - last name", .maxLength 50]),
        ("updatedAt", [.bsonType .date, .description "Last update timestamp"]) ] ]

/-- The object literal the script prints as its example of a valid user document; the
two `new Date()` values are the parameters. -/
def exampleValidUserDocument (consentTimestamp createdAt : Int) : Document :=
  [ ("roles", .array [.string "student"]),
    ("groupHomeId", .string "gh_001"),
    ("profile", .object
      [ ("firstName", .string "Jane"),
        ("lastName", .string "Doe"),
        ("phoneNumber", .string "+1234567890") ]),
    ("consentFlags", .object
      [ ("dataProcessingConsent", .bool true),
        ("communicationConsent", .bool true),
        ("consentTimestamp", .date consentTimestamp) ]),
    ("preferences", .object
      [ ("language", .string "en"),
        ("timezone", .string "UTC"),
        ("emailNotifications", .bool true),
        ("smsNotifications", .bool false),
        ("pushNotifications", .bool true) ]),
    ("riskFlags", .array [.string "academic_risk"]),
    ("email", .string "jane.doe@example.com"),
    ("createdAt", .date createdAt) ]

/-! ## Collections, indexes and writes -/

/-- The `validationLevel` option of a collection. -/
inductive ValidationLevel where
  | off | strict | moderate
  deriving DecidableEq, Repr

/-- The `validationAction` option of a collection. -/
inductive ValidationAction where
  | error | warn
  deriving DecidableEq, Repr

/-- One index declaration: the key spec (field names with direction `1` or `-1`, in
order) and the options `unique`, `sparse` and `name`.  An option the call does not
give is `false`. -/
structure IndexSpec where
  key : List (String × Int)
  unique : Bool
  sparse : Bool
  name : String
  deriving DecidableEq, Repr

/-- A collection: its validation options, its secondary indexes in creation order and
its stored records. -/
structure Collection where
  validator : Schema
  validationLevel : ValidationLevel
  validationAction : ValidationAction
  indexes : List IndexSpec
  documents : List Document

/-- A database: its collections by name. -/
abbrev Database := List (String × Collection)

/-- Why a write is refused. -/
inductive WriteError where
  | documentValidationFailure
  | cannotIndexParallelArrays (index : String)
  | duplicateKey (index : String)
  deriving DecidableEq, Repr

/-- Why a setup command is refused. -/
inductive SetupError where
  | namespaceExists (collection : String)
  | indexKeySpecsConflict (index : String)
  | indexOptionsConflict (index : String)
  deriving DecidableEq, Repr

/-- The key values one field contributes to an index: an absent field counts as null,
an array contributes each of its elements (an empty array: undefined). -/
def keyValues : Option Bson → List Bson
  | none => [.null]
  | some (.array []) => [.undefined]
  | some (.array xs) => xs
  | some v => [v]

/-- All ways to pick one value per key field. -/
def tuples : List (List Bson) → List (List Bson)
  | [] => [[]]
  | vs :: rest => (vs.map fun v => (tuples rest).map fun t => v :: t).flatten

/-- Whether the index holds an entry for the record: a sparse index skips a record
that has none of the key fields. -/
def IndexSpec.covers (idx : IndexSpec) (doc : Document) : Bool :=
  !idx.sparse || idx.key.any fun kd => (lookup kd.1 doc).isSome

/-- The index entries of a record. -/
def IndexSpec.entries (idx : IndexSpec) (doc : Document) : List (List Bson) :=
  if idx.covers doc then tuples (idx.key.map fun kd => keyValues (lookup kd.1 doc)) else []

/-- The key fields of the index that hold an array in the record. -/
def IndexSpec.arrayFields (idx : IndexSpec) (doc : Document) : List String :=
  (idx.key.map Prod.fst).filter fun f =>
    match lookup f doc with
    | some v => v.isArray
    | none => false

/-- Whether two records share an entry of the index. -/
def IndexSpec.clash (idx : IndexSpec) (stored incoming : Document) : Bool :=
  (idx.entries incoming).any fun e => (idx.entries stored).any fun e' => Bson.sameList e e'

/-- Whether the validator stands in the way of inserting the record. -/
def Collection.refuses (c : Collection) (doc : Document) : Bool :=
  c.validationLevel != .off && c.validationAction == .error && !validates c.validator doc

/-- Insert a record: the validator is consulted first, then the indexes. -/
def Collection.insert (c : Collection) (doc : Document) : Except WriteError Collection :=
  if c.refuses doc then .error .documentValidationFailure
  else
    match c.indexes.find? fun idx => decide (2 ≤ (idx.arrayFields doc).length) with
    | some idx => .error (.cannotIndexParallelArrays idx.name)
    | none =>
      match c.indexes.find? fun idx => idx.unique && c.documents.any fun s => idx.clash s doc with
      | some idx => .error (.duplicateKey idx.name)
      | none => .ok { c with documents := c.documents ++ [doc] }

/-- The command `db.createCollection(name, options)` on a database. -/
def createCollection (db : Database) (name : String) (validator : Schema)
    (validationLevel : ValidationLevel) (validationAction : ValidationAction) :
    Except SetupError Database :=
  if db.any fun nc => nc.1 == name then .error (.namespaceExists name)
  else .ok (db ++ [(name, ⟨validator, validationLevel, validationAction, [], []⟩)])

/-- The command `createIndex` on a collection: declaring an existing index again is a
no-op, reusing a name for another declaration or a key spec under another name is an
error.  (Building an index over stored records is not modelled: the script declares
its indexes on the collection it has just created.) -/
def Collection.createIndex (c : Collection) (idx : IndexSpec) :
    Except SetupError Collection :=
  if c.indexes.contains idx then .ok c
  else if c.indexes.any fun i => i.name == idx.name then .error (.indexKeySpecsConflict idx.name)
  else if c.indexes.any fun i => i.key == idx.key then .error (.indexOptionsConflict idx.name)
  else .ok { c with indexes := c.indexes ++ [idx] }

/-- The command `db.<collection>.createIndex(key, options)` on a database; a
collection that does not exist yet is created without a validator. -/
def createIndex (collection : String) (idx : IndexSpec) : Database → Except SetupError Database
  | [] => .ok [(collection, ⟨[], .strict, .error, [idx], []⟩)]
  | (n, c) :: rest =>
      if n = collection then (c.createIndex idx).map fun c' => (n, c') :: rest
      else (createIndex collection idx rest).map fun rest' => (n, c) :: rest'

/-! ## The script: its commands -/

/-- A command of the setup script. -/
inductive Command where
  | createCollection (name : String) (validator : Schema)
      (validationLevel : ValidationLevel) (validationAction : ValidationAction)
  | createIndex (collection : String) (idx : IndexSpec)

/-- The six `db.users.createIndex(...)` calls of the script, in order. -/
def indexDeclarations : List IndexSpec :=
  [ ⟨[("email", 1)], true, true, "email_unique_index"⟩,
    ⟨[("groupHomeId", 1)], false, false, "groupHomeId_index"⟩,
    ⟨[("roles", 1)], false, false, "roles_index"⟩,
    ⟨[("roles", 1), ("groupHomeId", 1)], false, false, "roles_groupHomeId_compound_index"⟩,
    ⟨[("createdAt", -1)], false, false, "createdAt_desc_index"⟩,
    ⟨[("riskFlags", 1)], false, false, "riskFlags_index"⟩ ]

/-- The script: `db.createCollection("users", ...)` followed by the six index
declarations. -/
def setupScript : List Command :=
  .createCollection "users" validator .strict .error ::
    indexDeclarations.map fun idx => .createIndex "users" idx

/-- Run one command. -/
def Command.run : Command → Database → Except SetupError Database
  | .createCollection name v level action, db => EduLift.createCollection db name v level action
  | .createIndex collection idx, db => EduLift.createIndex collection idx db

/-- Run commands in order; the first refused command stops the run. -/
def runScript : List Command → Database → Except SetupError Database
  | [], db => .ok db
  | cmd :: rest, db =>
      match cmd.run db with
      | .ok db' => runScript rest db'
      | .error e => .error e

/-- The `users` collection as the script sets it up, holding the given records. -/
def users (documents : List Document) : Collection :=
  ⟨validator, .strict, .error, indexDeclarations, documents⟩

/-- The properties a schema declares, with their schemas. -/
def declared : Schema → List (String × Schema)
  | [] => []
  | .properties props :: rest => props ++ declared rest
  | _ :: rest => declared rest

/-- The value found by following a path of field names through embedded objects. -/
def getPath : List String → Bson → Option Bson
  | [], v => some v
  | name :: path, v =>
      match v with
      | .object fs =>
          match lookup name fs with
          | some w => getPath path w
          | none => none
      | _ => none

mutual
/-- The typed fields one keyword declares: the paths, from the value the keyword
applies to, at which the schema gives a `bsonType`, with that type. -/
def Keyword.declaredTypes : Keyword → List (List String × BsonType)
  | .bsonType t => [([], t)]
  | .properties props => propsDeclaredTypes props
  | _ => []
/-- The typed fields a schema declares. -/
def declaredTypes : List Keyword → List (List String × BsonType)
  | [] => []
  | k :: ks => k.declaredTypes ++ declaredTypes ks
/-- The typed fields a list of properties declares. -/
def propsDeclaredTypes : List (String × List Keyword) → List (List String × BsonType)
  | [] => []
  | (name, schema) :: props =>
      (declaredTypes schema).map (fun pt => (name :: pt.1, pt.2)) ++ propsDeclaredTypes props
end

/-- Give the field `name` the value `v`: its first occurrence is replaced; a record
without the field gets it appended. -/
def setField (name : String) (v : Bson) : Document → Document
  | [] => [(name, v)]
  | (k, w) :: rest =>
      if k = name then (k, v) :: rest else (k, w) :: setField name v rest

/-- Give the field at the end of a path of embedded objects the value `v`; a record
in which the path does not lead through embedded objects is left as it is. -/
def setPath : List String → Bson → Document → Document
  | [], _, doc => doc
  | [name], v, doc => setField name v doc
  | name :: next :: path, v, doc =>
      match lookup name doc with
      | some (.object fs) => setField name (.object (setPath (next :: path) v fs)) doc
      | _ => doc

/-- The schema a list of properties gives the field `name`, if it declares it. -/
def schemaOf (name : String) : List (String × Schema) → Option Schema
  | [] => none
  | (k, s) :: rest => if k = name then some s else schemaOf name rest

mutual
/-- Remove from a value every field its schema does not declare, at every level of
embedded objects the schema describes. -/
def strip : Schema → Bson → Bson
  | schema, .object fs => .object (stripFields (declared schema) fs)
  | _, v => v
/-- Remove the fields that are not among the given properties; the fields that stay
are stripped with the schema of their property. -/
def stripFields : List (String × Schema) → Document → Document
  | _, [] => []
  | props, (k, v) :: rest =>
      match schemaOf k props with
      | some sub => (k, strip sub v) :: stripFields props rest
      | none => stripFields props rest
end

/-- The schema that describes the level reached by a path of field names; a level the
schema says nothing about has the empty schema. -/
def schemaAt : List String → Schema → Schema
  | [], schema => schema
  | name :: path, schema =>
      match schemaOf name (declared schema) with
      | some sub => schemaAt path sub
      | none => []

/-- The field names a schema declares. -/
def declaredNames (schema : Schema) : List String :=
  (declared schema).map Prod.fst

/-- The field names a schema requires. -/
def requiredNames : Schema → List String
  | [] => []
  | .required names :: rest => names ++ requiredNames rest
  | _ :: rest => requiredNames rest

/-- Whether a schema has an `enum` keyword. -/
def hasEnum : Schema → Bool
  | [] => false
  | .enum _ :: _ => true
  | _ :: rest => hasEnum rest

/-- The types a schema names with `bsonType`. -/
def typeNames : Schema → List BsonType
  | [] => []
  | .bsonType t :: rest => t :: typeNames rest
  | _ :: rest => typeNames rest

/-- A schema is tidy when it declares no property twice, declares every field it
requires, and gives a type other than object whenever it has an `enum`. -/
def tidy (schema : Schema) : Bool :=
  decide (declaredNames schema).Nodup &&
    (requiredNames schema).all (fun n => decide (n ∈ declaredNames schema)) &&
    (!hasEnum schema || (typeNames schema).any fun t => t != .object)

mutual
/-- Every schema nested in the properties of these keywords is tidy. -/
def tidyBelow : List Keyword → Bool
  | [] => true
  | .properties props :: rest => tidyProps props && tidyBelow rest
  | _ :: rest => tidyBelow rest
/-- Every schema of these properties is tidy, and so is every schema nested in it. -/
def tidyProps : List (String × List Keyword) → Bool
  | [] => true
  | (_, schema) :: props => tidy schema && tidyBelow schema && tidyProps props
end

/-- A record that satisfies the validator but for its `profile.firstName`, which is
the given string. -/
def recordWithFirstName (s : String) : Document :=
  [ ("roles", .array [.string "student"]),
    ("profile", .object [("firstName", .string s), ("lastName", .string "Doe")]),
    ("email", .string "jane.doe@example.com"),
    ("createdAt", .date 0) ]

/-! ## General facts about the keywords -/

theorem holdsAll_mem {schema : Schema} {v : Bson} (h : holdsAll schema v = true)
    {k : Keyword} (hk : k ∈ schema) : holds k v = true := by
  induction schema with
  | nil => cases hk
  | cons a rest ih =>
    simp only [holdsAll, Bool.and_eq_true] at h
    rcases List.mem_cons.mp hk with rfl | hk
    · exact h.1
    · exact ih h.2 hk

theorem holdsAll_of_forall {schema : Schema} {v : Bson}
    (h : ∀ k ∈ schema, holds k v = true) : holdsAll schema v = true := by
  induction schema with
  | nil => rfl
  | cons a rest ih =>
    simp only [holdsAll, Bool.and_eq_true]
    exact ⟨h a (List.mem_cons_self _ _), ih fun k hk => h k (List.mem_cons_of_mem _ hk)⟩

theorem holdsProps_mem {props : List (String × List Keyword)} {fs : Document}
    (h : holdsProps props fs = true) {name : String} {schema : Schema}
    (hm : (name, schema) ∈ props) {v : Bson} (hl : lookup name fs = some v) :
    holdsAll schema v = true := by
  induction props with
  | nil => cases hm
  | cons a rest ih =>
    obtain ⟨n, s⟩ := a
    simp only [holdsProps, Bool.and_eq_true] at h
    rcases List.mem_cons.mp hm with heq | hm
    · cases heq
      have h1 := h.1
      rw [hl] at h1
      exact h1
    · exact ih h.2 hm

theorem holdsProps_of_forall {props : List (String × List Keyword)} {fs : Document}
    (h : ∀ name schema v, (name, schema) ∈ props → lookup name fs = some v →
      holdsAll schema v = true) : holdsProps props fs = true := by
  induction props with
  | nil => rfl
  | cons a rest ih =>
    obtain ⟨n, s⟩ := a
    simp only [holdsProps, Bool.and_eq_true]
    refine ⟨?_, ih fun name schema v hm hl => h name schema v (List.mem_cons_of_mem _ hm) hl⟩
    cases hl : lookup n fs with
    | none => rfl
    | some v => exact h n s v (List.mem_cons_self _ _) hl

/-- A declared property that is present satisfies its schema. -/
theorem holdsAll_declared {schema : Schema} {fs : Document}
    (h : holdsAll schema (.object fs) = true) (name : String) (sub : Schema)
    (hm : (name, sub) ∈ declared schema) {v : Bson} (hl : lookup name fs = some v) :
    holdsAll sub v = true := by
  induction schema with
  | nil => cases hm
  | cons k rest ih =>
    simp only [holdsAll, Bool.and_eq_true] at h
    cases k with
    | properties props =>
      simp only [declared, List.mem_append] at hm
      rcases hm with hm | hm
      · have h1 := h.1
        simp only [holds] at h1
        exact holdsProps_mem h1 hm hl
      · exact ih h.2 hm
    | _ => exact ih h.2 hm

theorem same_string {v : Bson} {s : String} (h : Bson.same v (.string s) = true) :
    v = .string s := by
  cases v <;> simp_all [Bson.same]

theorem same_string_string (a b : String) :
    Bson.same (.string a) (.string b) = true ↔ a = b := by
  simp [Bson.same]

theorem typeOf_string {v : Bson} (h : v.typeOf = .string) : ∃ s, v = .string s := by
  cases v <;> simp_all [Bson.typeOf]

theorem typeOf_array {v : Bson} (h : v.typeOf = .array) : ∃ xs, v = .array xs := by
  cases v <;> simp_all [Bson.typeOf]

/-- A value that matches an enum of strings is one of those strings. -/
theorem enum_strings {names : List String} {v : Bson}
    (h : holds (.enum (names.map Bson.string)) v = true) :
    ∃ s, s ∈ names ∧ v = .string s := by
  simp only [holds, List.any_eq_true, List.mem_map] at h
  obtain ⟨e, ⟨s, hs, rfl⟩, he⟩ := h
  exact ⟨s, hs, same_string he⟩

/-- Every element of an array that satisfies `items` satisfies the item schema. -/
theorem items_mem {schema : Schema} {xs : List Bson}
    (h : holds (.items schema) (.array xs) = true) {x : Bson} (hx : x ∈ xs) :
    holdsAll schema x = true := by
  simp only [holds, List.all_eq_true] at h
  exact h x hx

/-- The three required fields of an accepted record are present. -/
theorem validator_required {doc : Document} (h : validates validator doc = true) :
    (lookup "roles" doc).isSome = true ∧ (lookup "email" doc).isSome = true ∧
      (lookup "createdAt" doc).isSome = true := by
  unfold validates validator at h
  simp only [holdsAll, Bool.and_eq_true] at h
  have h3 := h.2.2.1
  simpa [holds] using h3

/-- An accepted record is not refused by the collection the script sets up, and a
record the validator rejects is. -/
theorem users_refuses (stored : List Document) (doc : Document) :
    (users stored).refuses doc = !validates validator doc := by
  rfl

/-- An array whose elements are all strings of a given list is the image of a list of
such strings. -/
theorem strings_of_all {names : List String} :
    ∀ xs : List Bson, (∀ x ∈ xs, ∃ s, s ∈ names ∧ x = Bson.string s) →
      ∃ rs : List String, xs = rs.map Bson.string ∧ ∀ r ∈ rs, r ∈ names
  | [], _ => ⟨[], rfl, fun _ h => by cases h⟩
  | x :: xs, h => by
    obtain ⟨s, hs, rfl⟩ := h x (List.mem_cons_self _ _)
    obtain ⟨rs, rfl, hrs⟩ := strings_of_all xs fun y hy => h y (List.mem_cons_of_mem _ hy)
    refine ⟨s :: rs, rfl, fun r hr => ?_⟩
    rcases List.mem_cons.mp hr with rfl | hr
    · exact hs
    · exact hrs r hr

/-- On an array of strings `distinct` says that no string repeats. -/
theorem distinct_strings (rs : List String) :
    distinct (rs.map Bson.string) = true ↔ rs.Nodup := by
  induction rs with
  | nil => simp [distinct]
  | cons r rs ih =>
    simp only [List.map_cons, distinct, Bool.and_eq_true, ih, List.nodup_cons]
    constructor
    · rintro ⟨h1, h2⟩
      refine ⟨fun hmem => ?_, h2⟩
      have : (List.map Bson.string rs).any (Bson.same (.string r)) = true := by
        rw [List.any_eq_true]
        exact ⟨.string r, List.mem_map.mpr ⟨r, hmem, rfl⟩, (same_string_string r r).mpr rfl⟩
      rw [this] at h1
      cases h1
    · rintro ⟨h1, h2⟩
      refine ⟨?_, h2⟩
      cases hany : (List.map Bson.string rs).any (Bson.same (.string r)) with
      | false => rfl
      | true =>
        exfalso
        rw [List.any_eq_true] at hany
        obtain ⟨e, he, hsame⟩ := hany
        obtain ⟨t, ht, rfl⟩ := List.mem_map.mp he
        have := (same_string_string r t).mp hsame
        exact h1 (this ▸ ht)

/-- The shape of `roles` in an accepted record. -/
theorem accepted_roles_shape {doc : Document} (h : validates validator doc = true) :
    ∃ rs : List String, lookup "roles" doc = some (.array (rs.map Bson.string)) ∧
      rs ≠ [] ∧ rs.Nodup ∧ (∀ r ∈ rs, r ∈ roleNames) := by
  obtain ⟨hreq, -, -⟩ := validator_required h
  obtain ⟨v, hv⟩ := Option.isSome_iff_exists.mp hreq
  have hs := holdsAll_declared h
    "roles"
    ([ .bsonType .array, .description "User roles - required field", .minItems 1,
      .uniqueItems true, .items [.bsonType .string, .enum (roleNames.map Bson.string)] ])
    (by simp [declared, validator]) hv
  simp only [holdsAll, Bool.and_eq_true] at hs
  obtain ⟨htype, -, hmin, huniq, hitems, -⟩ := hs
  obtain ⟨xs, rfl⟩ := typeOf_array (by simpa [holds] using htype)
  have hall : ∀ x ∈ xs, ∃ s, s ∈ roleNames ∧ x = Bson.string s := by
    intro x hx
    have hitem := items_mem hitems hx
    simp only [holdsAll, Bool.and_eq_true] at hitem
    exact enum_strings hitem.2.1
  obtain ⟨rs, rfl, hrs⟩ := strings_of_all xs hall
  refine ⟨rs, hv, ?_, ?_, hrs⟩
  · rintro rfl
    simp [holds] at hmin
  · have : distinct (rs.map Bson.string) = true := by simpa [holds] using huniq
    exact (distinct_strings rs).mp this

theorem propsDeclaredTypes_ne_nil {props : List (String × List Keyword)} {t : BsonType} :
    ([], t) ∉ propsDeclaredTypes props := by
  induction props with
  | nil => simp [propsDeclaredTypes]
  | cons a rest ih =>
    obtain ⟨n, s⟩ := a
    simp only [propsDeclaredTypes, List.mem_append, List.mem_map, not_or]
    refine ⟨?_, ih⟩
    rintro ⟨pt, -, hpt⟩
    cases hpt

theorem propsDeclaredTypes_cons {props : List (String × List Keyword)} {name : String}
    {path : List String} {t : BsonType} (h : (name :: path, t) ∈ propsDeclaredTypes props) :
    ∃ schema, (name, schema) ∈ props ∧ (path, t) ∈ declaredTypes schema := by
  induction props with
  | nil => simp [propsDeclaredTypes] at h
  | cons a rest ih =>
    obtain ⟨n, s⟩ := a
    simp only [propsDeclaredTypes, List.mem_append, List.mem_map] at h
    rcases h with ⟨pt, hpt, heq⟩ | h
    · obtain ⟨p, t'⟩ := pt
      cases heq
      exact ⟨s, List.mem_cons_self _ _, hpt⟩
    · obtain ⟨schema, hm, hd⟩ := ih h
      exact ⟨schema, List.mem_cons_of_mem _ hm, hd⟩

theorem declaredTypes_nil {schema : Schema} {t : BsonType}
    (h : ([], t) ∈ declaredTypes schema) : Keyword.bsonType t ∈ schema := by
  induction schema with
  | nil => simp [declaredTypes] at h
  | cons k rest ih =>
    simp only [declaredTypes, List.mem_append] at h
    rcases h with h | h
    · cases k with
      | bsonType t' =>
        simp only [Keyword.declaredTypes, List.mem_singleton] at h
        cases h
        exact List.mem_cons_self _ _
      | properties props =>
        simp only [Keyword.declaredTypes] at h
        exact absurd h propsDeclaredTypes_ne_nil
      | _ => simp [Keyword.declaredTypes] at h
    · exact List.mem_cons_of_mem _ (ih h)

theorem declaredTypes_cons {schema : Schema} {name : String} {path : List String}
    {t : BsonType} (h : (name :: path, t) ∈ declaredTypes schema) :
    ∃ props sub, Keyword.properties props ∈ schema ∧ (name, sub) ∈ props ∧
      (path, t) ∈ declaredTypes sub := by
  induction schema with
  | nil => simp [declaredTypes] at h
  | cons k rest ih =>
    simp only [declaredTypes, List.mem_append] at h
    rcases h with h | h
    · cases k with
      | properties props =>
        simp only [Keyword.declaredTypes] at h
        obtain ⟨sub, hm, hd⟩ := propsDeclaredTypes_cons h
        exact ⟨props, sub, List.mem_cons_self _ _, hm, hd⟩
      | _ => simp [Keyword.declaredTypes] at h
    · obtain ⟨props, sub, hk, hm, hd⟩ := ih h
      exact ⟨props, sub, List.mem_cons_of_mem _ hk, hm, hd⟩

/-- A value of another type than declared, at a declared path, makes the schema fail. -/
theorem wrong_type_fails :
    ∀ (path : List String) (schema : Schema) (t : BsonType) (v w : Bson),
      (path, t) ∈ declaredTypes schema → getPath path v = some w → w.typeOf ≠ t →
      holdsAll schema v = false
  | [], schema, t, v, w, hd, hg, hk => by
    simp only [getPath, Option.some.injEq] at hg
    subst hg
    cases hval : holdsAll schema v with
    | false => rfl
    | true =>
      have := holdsAll_mem hval (declaredTypes_nil hd)
      simp only [holds, beq_iff_eq] at this
      exact absurd this hk
  | name :: path, schema, t, v, w, hd, hg, hk => by
    obtain ⟨props, sub, hprops, hm, hsub⟩ := declaredTypes_cons hd
    cases v with
    | object fs =>
      simp only [getPath] at hg
      cases hl : lookup name fs with
      | none => rw [hl] at hg; cases hg
      | some u =>
        rw [hl] at hg
        have hfalse := wrong_type_fails path sub t u w hsub hg hk
        cases hval : holdsAll schema (.object fs) with
        | false => rfl
        | true =>
          have h1 := holdsAll_mem hval hprops
          simp only [holds] at h1
          have h2 := holdsProps_mem h1 hm hl
          rw [hfalse] at h2
          cases h2
    | _ => simp [getPath] at hg

/-- In an accepted record `groupHomeId`, when present, is a string. -/
theorem accepted_groupHomeId {doc : Document} (h : validates validator doc = true)
    {v : Bson} (hv : lookup "groupHomeId" doc = some v) : ∃ s, v = .string s := by
  have hs := holdsAll_declared h
    "groupHomeId"
    ([ .bsonType .string, .description "Group home identifier - indexed field",
      .minLength 1, .maxLength 100 ])
    (by simp [declared, validator]) hv
  simp only [holdsAll, Bool.and_eq_true] at hs
  exact typeOf_string (by simpa [holds] using hs.1)

/-- In an accepted record every declared index has at most one key field that holds
an array. -/
theorem accepted_arrayFields {doc : Document} (h : validates validator doc = true) :
    ∀ idx ∈ indexDeclarations, (idx.arrayFields doc).length ≤ 1 := by
  have hfalse : (match lookup "groupHomeId" doc with
      | some v => v.isArray
      | none => false) = false := by
    cases hl : lookup "groupHomeId" doc with
    | none => rfl
    | some v =>
      obtain ⟨s, rfl⟩ := accepted_groupHomeId h hl
      rfl
  intro idx hidx
  simp only [indexDeclarations, List.mem_cons, List.mem_singleton, List.not_mem_nil,
    or_false] at hidx
  rcases hidx with rfl | rfl | rfl | rfl | rfl | rfl
  · exact List.length_filter_le _ _
  · exact List.length_filter_le _ _
  · exact List.length_filter_le _ _
  · simp only [IndexSpec.arrayFields, List.map_cons, List.map_nil, List.filter_cons,
      List.filter_nil, hfalse]
    split <;> simp
  · exact List.length_filter_le _ _
  · exact List.length_filter_le _ _

/-- Inserting an accepted record never trips over an index with two array fields. -/
theorem accepted_find_parallel {doc : Document} (h : validates validator doc = true) :
    indexDeclarations.find? (fun idx => decide (2 ≤ (idx.arrayFields doc).length)) = none := by
  rw [List.find?_eq_none]
  intro idx hidx
  have hle := accepted_arrayFields h idx hidx
  simp only [decide_eq_true_eq]
  omega

/-- The entries of `email_unique_index` for a record whose `email` is a string. -/
theorem email_entries_string {doc : Document} {s : String}
    (h : lookup "email" doc = some (.string s)) :
    IndexSpec.entries ⟨[("email", 1)], true, true, "email_unique_index"⟩ doc
      = [[.string s]] := by
  simp [IndexSpec.entries, IndexSpec.covers, h, keyValues, tuples]

/-- A record without `email` has no entry in the sparse `email_unique_index`. -/
theorem email_entries_absent {doc : Document} (h : lookup "email" doc = none) :
    IndexSpec.entries ⟨[("email", 1)], true, true, "email_unique_index"⟩ doc = [] := by
  simp [IndexSpec.entries, IndexSpec.covers, h]

/-- In an accepted record `email` is a string. -/
theorem accepted_email {doc : Document} (h : validates validator doc = true)
    {v : Bson} (hv : lookup "email" doc = some v) : ∃ s, v = .string s := by
  have hs := holdsAll_declared h
    "email"
    ([ .bsonType .string, .description "User email - unique indexed field",
      .maxLength 255 ])
    (by simp [declared, validator]) hv
  simp only [holdsAll, Bool.and_eq_true] at hs
  exact typeOf_string (by simpa [holds] using hs.1)

/-- A record without `email` is refused by the validator of the collection. -/
theorem insert_without_email (stored : List Document) {doc : Document}
    (h : lookup "email" doc = none) :
    (users stored).insert doc = .error .documentValidationFailure := by
  have hv : validates validator doc = false := by
    cases hval : validates validator doc with
    | false => rfl
    | true =>
      have := (validator_required hval).2.1
      rw [h] at this
      cases this
  simp [Collection.insert, users_refuses, hv]

theorem lookup_setField (k name : String) (v : Bson) (fs : Document) :
    lookup k (setField name v fs) = if k = name then some v else lookup k fs := by
  induction fs with
  | nil =>
    by_cases h : k = name
    · simp [setField, lookup, h]
    · simp [setField, lookup, h, Ne.symm h]
  | cons a rest ih =>
    obtain ⟨n, w⟩ := a
    by_cases hn : n = name
    · subst hn
      by_cases hk : k = n
      · simp [setField, lookup, hk]
      · simp [setField, lookup, hk, Ne.symm hk]
    · by_cases hk : k = name
      · subst hk
        simp [setField, lookup, hn, ih]
      · simp only [setField, hn, if_false, lookup, ih, hk]

mutual
theorem declared_induction_aux {P : Schema → Prop}
    (step : ∀ schema, (∀ n sub, (n, sub) ∈ declared schema → P sub) → P schema) :
    ∀ (schema : List Keyword) (n : String) (sub : Schema), (n, sub) ∈ declared schema → P sub
  | [], _, _, h => by cases h
  | .properties props :: ks, n, sub, h =>
      (List.mem_append.mp h).elim
        (fun h1 => props_induction_aux step props n sub h1)
        (fun h2 => declared_induction_aux step ks n sub h2)
  | .bsonType _ :: ks, n, sub, h => declared_induction_aux step ks n sub h
  | .title _ :: ks, n, sub, h => declared_induction_aux step ks n sub h
  | .description _ :: ks, n, sub, h => declared_induction_aux step ks n sub h
  | .required _ :: ks, n, sub, h => declared_induction_aux step ks n sub h
  | .minItems _ :: ks, n, sub, h => declared_induction_aux step ks n sub h
  | .uniqueItems _ :: ks, n, sub, h => declared_induction_aux step ks n sub h
  | .items _ :: ks, n, sub, h => declared_induction_aux step ks n sub h
  | .enum _ :: ks, n, sub, h => declared_induction_aux step ks n sub h
  | .minLength _ :: ks, n, sub, h => declared_induction_aux step ks n sub h
  | .maxLength _ :: ks, n, sub, h => declared_induction_aux step ks n sub h
theorem props_induction_aux {P : Schema → Prop}
    (step : ∀ schema, (∀ n sub, (n, sub) ∈ declared schema → P sub) → P schema) :
    ∀ (props : List (String × List Keyword)) (n : String) (sub : Schema),
      (n, sub) ∈ props → P sub
  | [], _, _, h => by cases h
  | (m, s) :: rest, n, sub, h =>
      (List.mem_cons.mp h).elim
        (fun h1 => by
          cases h1
          exact step _ (declared_induction_aux step s))
        (fun h2 => props_induction_aux step rest n sub h2)
end

/-- Induction over a schema along its declared properties. -/
theorem declared_induction {P : Schema → Prop}
    (step : ∀ schema, (∀ n sub, (n, sub) ∈ declared schema → P sub) → P schema)
    (schema : Schema) : P schema :=
  step schema (declared_induction_aux step schema)

mutual
theorem tidyBelow_mem :
    ∀ (schema : List Keyword) (n : String) (sub : Schema), tidyBelow schema = true →
      (n, sub) ∈ declared schema → tidy sub = true ∧ tidyBelow sub = true
  | [], _, _, _, h => by cases h
  | .properties props :: ks, n, sub, ht, h => by
      simp only [tidyBelow, Bool.and_eq_true] at ht
      exact (List.mem_append.mp h).elim
        (fun h1 => tidyProps_mem props n sub ht.1 h1)
        (fun h2 => tidyBelow_mem ks n sub ht.2 h2)
  | .bsonType _ :: ks, n, sub, ht, h => tidyBelow_mem ks n sub (by simpa only [tidyBelow] using ht) h
  | .title _ :: ks, n, sub, ht, h => tidyBelow_mem ks n sub (by simpa only [tidyBelow] using ht) h
  | .description _ :: ks, n, sub, ht, h => tidyBelow_mem ks n sub (by simpa only [tidyBelow] using ht) h
  | .required _ :: ks, n, sub, ht, h => tidyBelow_mem ks n sub (by simpa only [tidyBelow] using ht) h
  | .minItems _ :: ks, n, sub, ht, h => tidyBelow_mem ks n sub (by simpa only [tidyBelow] using ht) h
  | .uniqueItems _ :: ks, n, sub, ht, h => tidyBelow_mem ks n sub (by simpa only [tidyBelow] using ht) h
  | .items _ :: ks, n, sub, ht, h => tidyBelow_mem ks n sub (by simpa only [tidyBelow] using ht) h
  | .enum _ :: ks, n, sub, ht, h => tidyBelow_mem ks n sub (by simpa only [tidyBelow] using ht) h
  | .minLength _ :: ks, n, sub, ht, h => tidyBelow_mem ks n sub (by simpa only [tidyBelow] using ht) h
  | .maxLength _ :: ks, n, sub, ht, h => tidyBelow_mem ks n sub (by simpa only [tidyBelow] using ht) h
theorem tidyProps_mem :
    ∀ (props : List (String × List Keyword)) (n : String) (sub : Schema),
      tidyProps props = true → (n, sub) ∈ props → tidy sub = true ∧ tidyBelow sub = true
  | [], _, _, _, h => by cases h
  | (m, s) :: rest, n, sub, ht, h => by
      simp only [tidyProps, Bool.and_eq_true] at ht
      exact (List.mem_cons.mp h).elim
        (fun h1 => by
          cases h1
          exact ⟨ht.1.1, ht.1.2⟩)
        (fun h2 => tidyProps_mem rest n sub ht.2 h2)
end

theorem holdsAll_iff {schema : Schema} {v : Bson} :
    holdsAll schema v = true ↔ ∀ k ∈ schema, holds k v = true :=
  ⟨fun h _ hk => holdsAll_mem h hk, holdsAll_of_forall⟩

theorem holdsProps_iff {props : List (String × List Keyword)} {fs : Document} :
    holdsProps props fs = true ↔
      ∀ name schema v, (name, schema) ∈ props → lookup name fs = some v →
        holdsAll schema v = true :=
  ⟨fun h _ _ _ hm hl => holdsProps_mem h hm hl, holdsProps_of_forall⟩

theorem mem_declared {schema : Schema} {props : List (String × List Keyword)}
    (hk : Keyword.properties props ∈ schema) {name : String} {sub : Schema}
    (hm : (name, sub) ∈ props) : (name, sub) ∈ declared schema := by
  induction schema with
  | nil => cases hk
  | cons k rest ih =>
    rcases List.mem_cons.mp hk with rfl | hk'
    · simp only [declared, List.mem_append]
      exact Or.inl hm
    · cases k with
      | properties ps =>
        simp only [declared, List.mem_append]
        exact Or.inr (ih hk')
      | _ => exact ih hk'

theorem schemaOf_none {props : List (String × Schema)} {name : String}
    (h : name ∉ props.map Prod.fst) : schemaOf name props = none := by
  induction props with
  | nil => rfl
  | cons a rest ih =>
    obtain ⟨k, s⟩ := a
    simp only [List.map_cons, List.mem_cons, not_or] at h
    simp only [schemaOf, Ne.symm h.1, if_false]
    exact ih h.2

theorem schemaOf_of_mem {props : List (String × Schema)} {name : String} {sub : Schema}
    (hnd : (props.map Prod.fst).Nodup) (hm : (name, sub) ∈ props) :
    schemaOf name props = some sub := by
  induction props with
  | nil => cases hm
  | cons a rest ih =>
    obtain ⟨k, s⟩ := a
    simp only [List.map_cons, List.nodup_cons] at hnd
    rcases List.mem_cons.mp hm with heq | hm
    · cases heq
      simp [schemaOf]
    · have hne : k ≠ name := by
        rintro rfl
        exact hnd.1 (List.mem_map.mpr ⟨(k, sub), hm, rfl⟩)
      simp only [schemaOf, hne, if_false]
      exact ih hnd.2 hm

theorem schemaOf_isSome {props : List (String × Schema)} {name : String}
    (h : name ∈ props.map Prod.fst) : ∃ sub, schemaOf name props = some sub := by
  induction props with
  | nil => cases h
  | cons a rest ih =>
    obtain ⟨k, s⟩ := a
    by_cases hk : k = name
    · exact ⟨s, by simp [schemaOf, hk]⟩
    · simp only [List.map_cons, List.mem_cons] at h
      rcases h with h | h
      · exact absurd h.symm hk
      · simpa [schemaOf, hk] using ih h

theorem lookup_stripFields {props : List (String × Schema)} {name : String} {sub : Schema}
    (h : schemaOf name props = some sub) (fs : Document) :
    lookup name (stripFields props fs) = (lookup name fs).map (strip sub) := by
  induction fs with
  | nil => simp [stripFields, lookup]
  | cons a rest ih =>
    obtain ⟨k, v⟩ := a
    by_cases hk : k = name
    · subst hk
      simp [stripFields, h, lookup]
    · cases hs : schemaOf k props with
      | none => simp [stripFields, hs, lookup, hk, ih]
      | some t => simp [stripFields, hs, lookup, hk, ih]

theorem holdsAll_false_of_mem {schema : Schema} {v : Bson} {k : Keyword} (hk : k ∈ schema)
    (h : holds k v = false) : holdsAll schema v = false := by
  cases hval : holdsAll schema v with
  | false => rfl
  | true =>
    rw [holdsAll_mem hval hk] at h
    cases h

theorem requiredNames_mem {schema : Schema} {names : List String}
    (hk : Keyword.required names ∈ schema) {name : String} (hm : name ∈ names) :
    name ∈ requiredNames schema := by
  induction schema with
  | nil => cases hk
  | cons k rest ih =>
    rcases List.mem_cons.mp hk with rfl | hk'
    · simp only [requiredNames, List.mem_append]
      exact Or.inl hm
    · cases k with
      | required ns =>
        simp only [requiredNames, List.mem_append]
        exact Or.inr (ih hk')
      | _ => exact ih hk'

theorem hasEnum_of_mem {schema : Schema} {values : List Bson}
    (hk : Keyword.enum values ∈ schema) : hasEnum schema = true := by
  induction schema with
  | nil => cases hk
  | cons k rest ih =>
    rcases List.mem_cons.mp hk with rfl | hk'
    · rfl
    · cases k with
      | enum vs => rfl
      | _ => exact ih hk'

theorem typeNames_mem {schema : Schema} {t : BsonType} (h : t ∈ typeNames schema) :
    Keyword.bsonType t ∈ schema := by
  induction schema with
  | nil => cases h
  | cons k rest ih =>
    cases k with
    | bsonType t' =>
      simp only [typeNames, List.mem_cons] at h
      rcases h with rfl | h
      · exact List.mem_cons_self _ _
      · exact List.mem_cons_of_mem _ (ih h)
    | _ => exact List.mem_cons_of_mem _ (ih h)

/-- One level of the argument: stripping does not change the verdict of a tidy schema
when it does not change the verdict of the schemas of its properties. -/
theorem strip_step (schema : Schema) (htidy : tidy schema = true)
    (ih : ∀ n sub, (n, sub) ∈ declared schema →
      ∀ w, holdsAll sub (strip sub w) = holdsAll sub w) (v : Bson) :
    holdsAll schema (strip schema v) = holdsAll schema v := by
  cases v with
  | object fs =>
    simp only [strip]
    simp only [tidy, Bool.and_eq_true, decide_eq_true_eq, List.all_eq_true,
      Bool.or_eq_true, Bool.not_eq_true', List.any_eq_true, bne_iff_ne] at htidy
    obtain ⟨⟨hnd, hreq⟩, henum⟩ := htidy
    have hlook : ∀ n sub, (n, sub) ∈ declared schema →
        lookup n (stripFields (declared schema) fs) = (lookup n fs).map (strip sub) :=
      fun n sub hm => lookup_stripFields (schemaOf_of_mem hnd hm) fs
    by_cases hE : hasEnum schema = true
    · rcases henum with henum | ⟨t, ht, hne⟩
      · rw [hE] at henum; cases henum
      · have hk := typeNames_mem ht
        have hfalse : ∀ gs, holds (.bsonType t) (.object gs) = false := by
          intro gs
          simp only [holds, Bson.typeOf]
          exact beq_false_of_ne (Ne.symm hne)
        rw [holdsAll_false_of_mem hk (hfalse _), holdsAll_false_of_mem hk (hfalse _)]
    · have hkey : ∀ k ∈ schema,
          holds k (.object (stripFields (declared schema) fs)) = holds k (.object fs) := by
        intro k hk
        cases k with
        | bsonType t => simp [holds, Bson.typeOf]
        | title _ => rfl
        | description _ => rfl
        | required names =>
          simp only [holds]
          rw [Bool.eq_iff_iff, List.all_eq_true, List.all_eq_true]
          have hsome : ∀ m ∈ names,
              (lookup m (stripFields (declared schema) fs)).isSome = (lookup m fs).isSome := by
            intro m hm
            obtain ⟨sub, hsub⟩ := schemaOf_isSome (hreq m (requiredNames_mem hk hm))
            rw [lookup_stripFields hsub]
            cases lookup m fs <;> rfl
          constructor
          · intro h m hm
            rw [← hsome m hm]
            exact h m hm
          · intro h m hm
            rw [hsome m hm]
            exact h m hm
        | properties props =>
          simp only [holds]
          rw [Bool.eq_iff_iff, holdsProps_iff, holdsProps_iff]
          constructor
          · intro h name sub w hm hl
            have hd := mem_declared hk hm
            have := h name sub (strip sub w) hm (by rw [hlook name sub hd, hl]; rfl)
            rwa [ih name sub hd w] at this
          · intro h name sub w' hm hl
            have hd := mem_declared hk hm
            rw [hlook name sub hd] at hl
            cases hw : lookup name fs with
            | none => rw [hw] at hl; cases hl
            | some w =>
              rw [hw] at hl
              simp only [Option.map_some', Option.some.injEq] at hl
              subst hl
              rw [ih name sub hd w]
              exact h name sub w hm hw
        | minItems _ => rfl
        | uniqueItems _ => rfl
        | items _ => rfl
        | enum values => exact absurd (hasEnum_of_mem hk) hE
        | minLength _ => rfl
        | maxLength _ => rfl
      rw [Bool.eq_iff_iff, holdsAll_iff, holdsAll_iff]
      constructor
      · intro h k hk
        rw [← hkey k hk]
        exact h k hk
      · intro h k hk
        rw [hkey k hk]
        exact h k hk
  | _ => rfl

/-- Stripping the undeclared fields does not change the verdict of a schema that is
tidy at every level. -/
theorem strip_verdict (schema : Schema) :
    tidy schema = true → tidyBelow schema = true →
      ∀ v, holdsAll schema (strip schema v) = holdsAll schema v := by
  induction schema using declared_induction with
  | step schema ih =>
    intro ht hb v
    exact strip_step schema ht
      (fun n sub hm w =>
        ih n sub hm (tidyBelow_mem schema n sub hb hm).1 (tidyBelow_mem schema n sub hb hm).2 w)
      v

theorem validator_tidy : tidy validator = true ∧ tidyBelow validator = true := by
  constructor
  · decide
  · simp [tidyBelow, tidyProps, validator, profileSchema, consentFlagsSchema,
      preferencesSchema, tidy, declaredNames, declared, requiredNames, hasEnum, typeNames]

theorem validates_strip (doc : Document) :
    validates validator (stripFields (declared validator) doc) = validates validator doc :=
  strip_verdict validator validator_tidy.1 validator_tidy.2 (.object doc)

theorem stripFields_setField_undeclared {props : List (String × Schema)} {name : String}
    (h : schemaOf name props = none) (v : Bson) (fs : Document) :
    stripFields props (setField name v fs) = stripFields props fs := by
  induction fs with
  | nil => simp [setField, stripFields, h]
  | cons a rest ih =>
    obtain ⟨k, w⟩ := a
    by_cases hk : k = name
    · subst hk
      simp [setField, stripFields, h]
    · simp only [setField, hk, if_false, stripFields, ih]

theorem stripFields_setField_same {props : List (String × Schema)} {name : String}
    {w w' : Bson} {fs : Document} (hl : lookup name fs = some w)
    (h : ∀ sub, schemaOf name props = some sub → strip sub w' = strip sub w) :
    stripFields props (setField name w' fs) = stripFields props fs := by
  induction fs with
  | nil => cases hl
  | cons a rest ih =>
    obtain ⟨k, u⟩ := a
    by_cases hk : k = name
    · subst hk
      simp only [lookup, if_true, Option.some.injEq] at hl
      subst hl
      cases hs : schemaOf k props with
      | none => simp [setField, stripFields, hs]
      | some sub => simp [setField, stripFields, hs, h sub hs]
    · simp only [lookup, hk, if_false] at hl
      simp only [setField, hk, if_false, stripFields, ih hl]

/-- Adding a field that the schema does not declare at its level leaves the stripped
record as it was. -/
theorem stripFields_setPath (name : String) (value : Bson) :
    ∀ (path : List String) (schema : Schema) (doc : Document),
      name ∉ declaredNames (schemaAt path schema) →
      stripFields (declared schema) (setPath (path ++ [name]) value doc)
        = stripFields (declared schema) doc
  | [], schema, doc, h => by
    simp only [List.nil_append, setPath]
    exact stripFields_setField_undeclared (schemaOf_none h) value doc
  | p :: path, schema, doc, h => by
    have hshape : ∃ next rest, path ++ [name] = next :: rest := by
      cases path with
      | nil => exact ⟨name, [], rfl⟩
      | cons q qs => exact ⟨q, qs ++ [name], rfl⟩
    obtain ⟨next, rest, hnr⟩ := hshape
    rw [List.cons_append, hnr]
    simp only [setPath]
    cases hl : lookup p doc with
    | none => rfl
    | some w =>
      cases w with
      | object fs =>
        simp only []
        refine stripFields_setField_same hl ?_
        intro sub hsub
        simp only [strip]
        rw [← hnr]
        have hat : schemaAt (p :: path) schema = schemaAt path sub := by
          simp [schemaAt, hsub]
        rw [hat] at h
        rw [stripFields_setPath name value path sub fs h]
      | _ => rfl

/-- Putting back the value of one field: an object schema without `enum` that holds
of the record with the field replaced holds of the record itself once the original
value satisfies what the schema declares for the field. -/
theorem holdsAll_of_setField {schema : Schema} (hE : hasEnum schema = false)
    {fs : Document} {name : String} {v w : Bson} (hl : lookup name fs = some w)
    (h : holdsAll schema (.object (setField name v fs)) = true)
    (hw : ∀ sub, (name, sub) ∈ declared schema → holdsAll sub w = true) :
    holdsAll schema (.object fs) = true := by
  rw [holdsAll_iff] at h ⊢
  intro k hk
  have hk' := h k hk
  cases k with
  | bsonType t => simpa [holds, Bson.typeOf] using hk'
  | title _ => rfl
  | description _ => rfl
  | required names =>
    simp only [holds, List.all_eq_true] at hk' ⊢
    intro m hm
    have := hk' m hm
    rw [lookup_setField] at this
    by_cases hmn : m = name
    · subst hmn
      rw [hl]
      rfl
    · simpa [hmn] using this
  | properties props =>
    simp only [holds] at hk' ⊢
    rw [holdsProps_iff] at hk' ⊢
    intro m sub u hm hu
    by_cases hmn : m = name
    · subst hmn
      rw [hl] at hu
      cases hu
      exact hw sub (mem_declared hk hm)
    · exact hk' m sub u hm (by rw [lookup_setField]; simpa [hmn] using hu)
  | minItems _ => rfl
  | uniqueItems _ => rfl
  | items _ => rfl
  | enum values =>
    rw [hasEnum_of_mem hk] at hE
    cases hE
  | minLength _ => rfl
  | maxLength _ => rfl

/-! ## The claims -/

/-- C1: a record that lacks `roles`, `email` or `createdAt` is rejected by the
validator, and inserting it into the `users` collection (validationLevel strict,
validationAction error) fails with a validation error, whatever else the record and
the collection hold. -/
theorem missing_required_field_rejected (doc : Document)
    (h : lookup "roles" doc = none ∨ lookup "email" doc = none ∨
      lookup "createdAt" doc = none) :
    validates validator doc = false ∧
      ∀ stored : List Document,
        (users stored).insert doc = .error .documentValidationFailure := by
  have hv : validates validator doc = false := by
    cases hval : validates validator doc with
    | false => rfl
    | true =>
      obtain ⟨h1, h2, h3⟩ := validator_required hval
      rcases h with h | h | h
      · rw [h] at h1; cases h1
      · rw [h] at h2; cases h2
      · rw [h] at h3; cases h3
  refine ⟨hv, fun stored => ?_⟩
  simp [Collection.insert, users_refuses, hv]

theorem missing_required_field_rejected_witness :
    lookup "email" [("roles", .array [.string "student"]), ("createdAt", .date 0)] = none ∧
      validates validator [("roles", .array [.string "student"]), ("createdAt", .date 0)]
        = false ∧
      (users []).insert [("roles", .array [.string "student"]), ("createdAt", .date 0)]
        = .error .documentValidationFailure :=
  ⟨rfl,
    (missing_required_field_rejected
      [("roles", .array [.string "student"]), ("createdAt", .date 0)]
      (Or.inr (Or.inl rfl))).1,
    (missing_required_field_rejected
      [("roles", .array [.string "student"]), ("createdAt", .date 0)]
      (Or.inr (Or.inl rfl))).2 []⟩

/-- C2, as the script has it: when a stored record and an incoming record have the
same `email` value, the insertion is rejected, by the validator if the incoming record
is not valid and by `email_unique_index` otherwise; two records that both lack `email`
do not clash under the sparse `email_unique_index`, but neither can be inserted,
because the validator requires `email`. -/
theorem email_unique_and_required (stored : List Document) (first second : Document) :
    (∀ e : Bson, first ∈ stored → lookup "email" first = some e →
        lookup "email" second = some e →
        (users stored).insert second =
          if validates validator second then .error (.duplicateKey "email_unique_index")
          else .error .documentValidationFailure) ∧
      (lookup "email" first = none → lookup "email" second = none →
        IndexSpec.clash ⟨[("email", 1)], true, true, "email_unique_index"⟩ first second
            = false ∧
          (users stored).insert first = .error .documentValidationFailure ∧
          (users stored).insert second = .error .documentValidationFailure) := by
  constructor
  · intro e hmem h1 h2
    cases hval : validates validator second with
    | false => simp [Collection.insert, users_refuses, hval]
    | true =>
      obtain ⟨s, rfl⟩ := accepted_email hval h2
      have hclash : IndexSpec.clash ⟨[("email", 1)], true, true, "email_unique_index"⟩
          first second = true := by
        simp [IndexSpec.clash, email_entries_string h1, email_entries_string h2,
          Bson.sameList, Bson.same]
      have hany : stored.any (fun d =>
          IndexSpec.clash ⟨[("email", 1)], true, true, "email_unique_index"⟩ d second)
          = true := List.any_eq_true.mpr ⟨first, hmem, hclash⟩
      have hpar : (users stored).indexes.find?
          (fun idx => decide (2 ≤ (idx.arrayFields second).length)) = none :=
        accepted_find_parallel hval
      simp only [Collection.insert, users_refuses, hval, hpar]
      simp [users, indexDeclarations, List.find?, hany]
  · intro h1 h2
    refine ⟨?_, insert_without_email stored h1, insert_without_email stored h2⟩
    simp [IndexSpec.clash, email_entries_absent h2]

theorem email_unique_and_required_witness :
    ([ ("roles", .array [.string "student"]), ("email", .string "jane.doe@example.com"),
        ("createdAt", .date 0) ] : Document) ∈
        [[ ("roles", .array [.string "student"]), ("email", .string "jane.doe@example.com"),
          ("createdAt", .date 0) ]] ∧
      (users [[ ("roles", .array [.string "student"]),
          ("email", .string "jane.doe@example.com"), ("createdAt", .date 0) ]]).insert
        (exampleValidUserDocument 0 0) = .error (.duplicateKey "email_unique_index") :=
  ⟨List.mem_cons_self _ _,
    ((email_unique_and_required
      [[ ("roles", .array [.string "student"]), ("email", .string "jane.doe@example.com"),
        ("createdAt", .date 0) ]]
      [ ("roles", .array [.string "student"]), ("email", .string "jane.doe@example.com"),
        ("createdAt", .date 0) ]
      (exampleValidUserDocument 0 0)).1 (.string "jane.doe@example.com")
      (List.mem_cons_self _ _) rfl rfl).trans (if_pos rfl)⟩

/-- C2, counterexample: two records that lack `email` and are valid in every other
respect (each is accepted once an `email` is added) and that do not clash under the
sparse `email_unique_index`; the collection the script sets up refuses each of them
with a validation error, so they do not coexist in it. -/
theorem coexist_without_email_counterexample :
    lookup "email" [("roles", .array [.string "student"]), ("createdAt", .date 0)] = none ∧
      lookup "email" [("roles", .array [.string "mentor"]), ("createdAt", .date 1)] = none ∧
      validates validator
        [ ("email", .string "a@example.com"), ("roles", .array [.string "student"]),
          ("createdAt", .date 0) ] = true ∧
      validates validator
        [ ("email", .string "b@example.com"), ("roles", .array [.string "mentor"]),
          ("createdAt", .date 1) ] = true ∧
      IndexSpec.clash ⟨[("email", 1)], true, true, "email_unique_index"⟩
        [("roles", .array [.string "student"]), ("createdAt", .date 0)]
        [("roles", .array [.string "mentor"]), ("createdAt", .date 1)] = false ∧
      (users []).insert [("roles", .array [.string "student"]), ("createdAt", .date 0)]
        = .error .documentValidationFailure ∧
      (users []).insert [("roles", .array [.string "mentor"]), ("createdAt", .date 1)]
        = .error .documentValidationFailure :=
  ⟨rfl, rfl, rfl, rfl, rfl, rfl, rfl⟩

/-- C3: in every accepted record `roles` is an array of role names that is non-empty,
repeats no entry and has between one and four entries; and a record whose `roles`
array is empty, repeats an entry, or holds an entry that is not a role name is
rejected. -/
theorem roles_constraint (doc : Document) :
    (validates validator doc = true →
        ∃ rs : List String, lookup "roles" doc = some (.array (rs.map Bson.string)) ∧
          rs ≠ [] ∧ rs.Nodup ∧ (∀ r ∈ rs, r ∈ roleNames) ∧
          1 ≤ rs.length ∧ rs.length ≤ 4) ∧
      (∀ xs : List Bson, lookup "roles" doc = some (.array xs) →
        (xs = [] ∨ ¬ xs.Nodup ∨ ∃ x ∈ xs, x ∉ roleNames.map Bson.string) →
        validates validator doc = false) := by
  constructor
  · intro h
    obtain ⟨rs, hl, hne, hnd, hmem⟩ := accepted_roles_shape h
    refine ⟨rs, hl, hne, hnd, hmem, ?_, ?_⟩
    · exact List.length_pos.mpr hne
    · exact (List.subperm_of_subset hnd hmem).length_le
  · intro xs hl hbad
    cases hval : validates validator doc with
    | false => rfl
    | true =>
      exfalso
      obtain ⟨rs, hl', hne, hnd, hmem⟩ := accepted_roles_shape hval
      rw [hl] at hl'
      obtain rfl : xs = rs.map Bson.string := by
        injection hl' with h1
        injection h1
      rcases hbad with hempty | hdup | ⟨x, hx, hout⟩
      · exact hne (List.map_eq_nil_iff.mp hempty)
      · exact hdup (hnd.map fun a b hab => by injection hab)
      · obtain ⟨r, hr, rfl⟩ := List.mem_map.mp hx
        exact hout (List.mem_map.mpr ⟨r, hmem r hr, rfl⟩)

theorem roles_constraint_witness :
    validates validator (exampleValidUserDocument 0 0) = true ∧
      (∃ rs : List String,
        lookup "roles" (exampleValidUserDocument 0 0) = some (.array (rs.map Bson.string)) ∧
          rs ≠ [] ∧ rs.Nodup ∧ (∀ r ∈ rs, r ∈ roleNames) ∧ 1 ≤ rs.length ∧ rs.length ≤ 4) ∧
      validates validator
        [ ("roles", .array [.string "student", .string "student"]),
          ("email", .string "a@b.c"), ("createdAt", .date 0) ] = false :=
  ⟨rfl, (roles_constraint (exampleValidUserDocument 0 0)).1 rfl,
    (roles_constraint
      [ ("roles", .array [.string "student", .string "student"]),
        ("email", .string "a@b.c"), ("createdAt", .date 0) ]).2
      [.string "student", .string "student"] rfl (Or.inr (Or.inl (by simp)))⟩

/-- C4: a record whose `riskFlags` array contains an entry that is not one of the ten
risk categories is rejected by the validator. -/
theorem riskFlags_outside_vocabulary_rejected (doc : Document) (flags : List Bson)
    (x : Bson) (h : lookup "riskFlags" doc = some (.array flags)) (hx : x ∈ flags)
    (hout : x ∉ riskCategories.map Bson.string) :
    validates validator doc = false := by
  cases hval : validates validator doc with
  | false => rfl
  | true =>
    exfalso
    have hs := holdsAll_declared hval
      "riskFlags"
      ([ .bsonType .array, .description "Array of risk indicators",
        .items [.bsonType .string, .enum (riskCategories.map Bson.string)] ])
      (by simp [declared, validator]) h
    simp only [holdsAll, Bool.and_eq_true] at hs
    have hitem := items_mem hs.2.2.1 hx
    simp only [holdsAll, Bool.and_eq_true] at hitem
    obtain ⟨s, hs', rfl⟩ := enum_strings hitem.2.1
    exact hout (List.mem_map.mpr ⟨s, hs', rfl⟩)

theorem riskFlags_outside_vocabulary_rejected_witness :
    lookup "riskFlags"
        [ ("roles", .array [.string "student"]), ("email", .string "a@b.c"),
          ("createdAt", .date 0), ("riskFlags", .array [.string "flight_risk"]) ]
        = some (.array [.string "flight_risk"]) ∧
      Bson.string "flight_risk" ∈ [Bson.string "flight_risk"] ∧
      Bson.string "flight_risk" ∉ riskCategories.map Bson.string ∧
      validates validator
        [ ("roles", .array [.string "student"]), ("email", .string "a@b.c"),
          ("createdAt", .date 0), ("riskFlags", .array [.string "flight_risk"]) ] = false :=
  ⟨rfl, List.mem_cons_self _ _, by simp [riskCategories],
    riskFlags_outside_vocabulary_rejected _ [.string "flight_risk"] (.string "flight_risk")
      rfl (List.mem_cons_self _ _) (by simp [riskCategories])⟩

/-- C5: for a record whose `profile.firstName` is a string and that satisfies the
schema in all other respects (it is accepted once `profile.firstName` is replaced by
the empty string), the validator accepts the record when the string has at most 50
characters and rejects it when it has more; so length 50 is accepted and length 51 is
rejected. -/
theorem firstName_length_boundary (doc profile : Document) (s : String)
    (hp : lookup "profile" doc = some (.object profile))
    (hf : lookup "firstName" profile = some (.string s))
    (hother : validates validator
      (setPath ["profile", "firstName"] (.string "") doc) = true) :
    (s.length ≤ 50 → validates validator doc = true) ∧
      (50 < s.length → validates validator doc = false) := by
  constructor
  · intro hlen
    simp only [setPath, hp] at hother
    have hprofile : holdsAll profileSchema
        (.object (setField "firstName" (.string "") profile)) = true :=
      holdsAll_declared hother "profile" profileSchema
        (by simp [declared, validator]) (by rw [lookup_setField]; rfl)
    refine holdsAll_of_setField (by rfl) hp hother ?_
    intro sub hsub
    obtain rfl : sub = profileSchema := by
      simpa [declared, validator] using hsub
    refine holdsAll_of_setField (by rfl) hf hprofile ?_
    intro sub hsub
    obtain rfl : sub = [.bsonType .string, .maxLength 50] := by
      simpa [declared, profileSchema] using hsub
    simp [holdsAll, holds, Bson.typeOf, hlen]
  · intro hlen
    cases hval : validates validator doc with
    | false => rfl
    | true =>
      exfalso
      have h1 := holdsAll_declared hval "profile" profileSchema
        (by simp [declared, validator]) hp
      have h2 := holdsAll_declared h1 "firstName" [.bsonType .string, .maxLength 50]
        (by simp [declared, profileSchema]) hf
      simp only [holdsAll, holds, Bool.and_eq_true, decide_eq_true_eq] at h2
      omega

theorem firstName_length_boundary_witness :
    lookup "profile"
        (recordWithFirstName "aaaaaaaaaaaaaaaaaaaaaaaaaaaaaaaaaaaaaaaaaaaaaaaaaa") =
        some (.object
          [ ("firstName", .string "aaaaaaaaaaaaaaaaaaaaaaaaaaaaaaaaaaaaaaaaaaaaaaaaaa"),
            ("lastName", .string "Doe") ]) ∧
      "aaaaaaaaaaaaaaaaaaaaaaaaaaaaaaaaaaaaaaaaaaaaaaaaaa".length = 50 ∧
      "aaaaaaaaaaaaaaaaaaaaaaaaaaaaaaaaaaaaaaaaaaaaaaaaaaa".length = 51 ∧
      validates validator
        (setPath ["profile", "firstName"] (.string "")
          (recordWithFirstName "aaaaaaaaaaaaaaaaaaaaaaaaaaaaaaaaaaaaaaaaaaaaaaaaaa")) = true ∧
      validates validator
        (recordWithFirstName "aaaaaaaaaaaaaaaaaaaaaaaaaaaaaaaaaaaaaaaaaaaaaaaaaa") = true ∧
      validates validator
        (recordWithFirstName "aaaaaaaaaaaaaaaaaaaaaaaaaaaaaaaaaaaaaaaaaaaaaaaaaaa") = false :=
  ⟨rfl, by decide, by decide, rfl,
    (firstName_length_boundary
      (recordWithFirstName "aaaaaaaaaaaaaaaaaaaaaaaaaaaaaaaaaaaaaaaaaaaaaaaaaa")
      [ ("firstName", .string "aaaaaaaaaaaaaaaaaaaaaaaaaaaaaaaaaaaaaaaaaaaaaaaaaa"),
        ("lastName", .string "Doe") ]
      "aaaaaaaaaaaaaaaaaaaaaaaaaaaaaaaaaaaaaaaaaaaaaaaaaa" rfl rfl rfl).1 (by decide),
    (firstName_length_boundary
      (recordWithFirstName "aaaaaaaaaaaaaaaaaaaaaaaaaaaaaaaaaaaaaaaaaaaaaaaaaaa")
      [ ("firstName", .string "aaaaaaaaaaaaaaaaaaaaaaaaaaaaaaaaaaaaaaaaaaaaaaaaaaa"),
        ("lastName", .string "Doe") ]
      "aaaaaaaaaaaaaaaaaaaaaaaaaaaaaaaaaaaaaaaaaaaaaaaaaaa" rfl rfl rfl).2 (by decide)⟩

/-- C6: the validator is permissive toward unlisted fields at every level.  Giving an
accepted record a field whose name the schema does not declare at that level (the top
level, inside `profile`, `consentFlags`, `preferences`, `profile.additionalInfo`,
`preferences.customPreferences`, or any other level), with any value, yields an
accepted record; and the verdict on a record is the verdict on the record with all
undeclared fields removed. -/
theorem unlisted_fields_permitted :
    (∀ (doc : Document) (path : List String) (name : String) (value : Bson),
        name ∉ declaredNames (schemaAt path validator) →
        validates validator doc = true →
        validates validator (setPath (path ++ [name]) value doc) = true) ∧
      (∀ doc : Document,
        validates validator (stripFields (declared validator) doc)
          = validates validator doc) ∧
      [ [], ["profile"], ["consentFlags"], ["preferences"], ["profile", "additionalInfo"],
          ["preferences", "customPreferences"] ].map
          (fun path => declaredNames (schemaAt path validator)) =
        [ [ "_id", "roles", "groupHomeId", "profile", "consentFlags", "preferences",
            "riskFlags", "createdAt", "email", "username", "firstName", "lastName",
            "updatedAt" ],
          [ "firstName", "lastName", "phoneNumber", "dateOfBirth", "address",
            "emergencyContact", "emergencyPhoneNumber", "additionalInfo" ],
          [ "dataProcessingConsent", "communicationConsent", "emergencyContactConsent",
            "photoVideoConsent", "consentTimestamp" ],
          [ "language", "timezone", "emailNotifications", "smsNotifications",
            "pushNotifications", "customPreferences" ],
          [],
          [] ] := by
  refine ⟨fun doc path name value hname hval => ?_, validates_strip, by decide⟩
  rw [← validates_strip, stripFields_setPath name value path validator doc hname,
    validates_strip]
  exact hval

theorem unlisted_fields_permitted_witness :
    "nickname" ∉ declaredNames (schemaAt ["profile"] validator) ∧
      validates validator (exampleValidUserDocument 0 0) = true ∧
      validates validator
        (setPath (["profile"] ++ ["nickname"]) (.int 7) (exampleValidUserDocument 0 0))
        = true :=
  ⟨by decide, rfl,
    unlisted_fields_permitted.1 (exampleValidUserDocument 0 0) ["profile"] "nickname" (.int 7)
      (by decide) rfl⟩

/-- C7: the script declares exactly six indexes on `users`, in this order, with these
names and key specs; `email_unique_index` is the only unique and the only sparse one;
no two declarations share a name or a key spec; run on an empty database the script
creates the collection with exactly these six indexes, and run again on the result it
stops at `createCollection` without declaring any index. -/
theorem six_index_declarations :
    indexDeclarations.map (fun idx => (idx.name, idx.key)) =
        [ ("email_unique_index", [("email", 1)]),
          ("groupHomeId_index", [("groupHomeId", 1)]),
          ("roles_index", [("roles", 1)]),
          ("roles_groupHomeId_compound_index", [("roles", 1), ("groupHomeId", 1)]),
          ("createdAt_desc_index", [("createdAt", -1)]),
          ("riskFlags_index", [("riskFlags", 1)]) ] ∧
      (indexDeclarations.filter fun idx => idx.unique).map (fun idx => idx.name) =
        ["email_unique_index"] ∧
      (indexDeclarations.filter fun idx => idx.sparse).map (fun idx => idx.name) =
        ["email_unique_index"] ∧
      (indexDeclarations.map fun idx => idx.name).Nodup ∧
      (indexDeclarations.map fun idx => idx.key).Nodup ∧
      runScript setupScript [] = .ok [("users", users [])] ∧
      ∀ stored : List Document,
        runScript setupScript [("users", users stored)] = .error (.namespaceExists "users") := by
  refine ⟨by decide, by decide, by decide, by decide, by decide, rfl, fun _ => rfl⟩

/-- C8: the object literal the script prints as its example of a valid user document
satisfies the validator, whatever dates `consentTimestamp` and `createdAt` take; so the
validator accepts at least one record. -/
theorem example_document_valid :
    (∀ consentTimestamp createdAt : Int,
        validates validator (exampleValidUserDocument consentTimestamp createdAt) = true) ∧
      ∃ doc : Document, validates validator doc = true :=
  ⟨fun _ _ => rfl, exampleValidUserDocument 0 0, rfl⟩

/-- C9: the validator declares a `bsonType` for the record itself, for thirteen
top-level fields and for every declared sub-field of `profile`, `consentFlags` and
`preferences`; a record in which one of these fields is present with a value of
another type is rejected. -/
theorem wrong_kind_rejected :
    declaredTypes validator =
        [ ([], .object),
          (["_id"], .objectId),
          (["roles"], .array),
          (["groupHomeId"], .string),
          (["profile"], .object),
          (["profile", "firstName"], .string),
          (["profile", "lastName"], .string),
          (["profile", "phoneNumber"], .string),
          (["profile", "dateOfBirth"], .string),
          (["profile", "address"], .string),
          (["profile", "emergencyContact"], .string),
          (["profile", "emergencyPhoneNumber"], .string),
          (["profile", "additionalInfo"], .object),
          (["consentFlags"], .object),
          (["consentFlags", "dataProcessingConsent"], .bool),
          (["consentFlags", "communicationConsent"], .bool),
          (["consentFlags", "emergencyContactConsent"], .bool),
          (["consentFlags", "photoVideoConsent"], .bool),
          (["consentFlags", "consentTimestamp"], .date),
          (["preferences"], .object),
          (["preferences", "language"], .string),
          (["preferences", "timezone"], .string),
          (["preferences", "emailNotifications"], .bool),
          (["preferences", "smsNotifications"], .bool),
          (["preferences", "pushNotifications"], .bool),
          (["preferences", "customPreferences"], .object),
          (["riskFlags"], .array),
          (["createdAt"], .date),
          (["email"], .string),
          (["username"], .string),
          (["firstName"], .string),
          (["lastName"], .string),
          (["updatedAt"], .date) ] ∧
      ∀ (doc : Document) (path : List String) (t : BsonType) (w : Bson),
        (path, t) ∈ declaredTypes validator → getPath path (.object doc) = some w →
        w.typeOf ≠ t → validates validator doc = false :=
  ⟨by decide, fun doc path t w hd hg hk => wrong_type_fails path validator t (.object doc) w hd hg hk⟩

theorem wrong_kind_rejected_witness :
    (["createdAt"], BsonType.date) ∈ declaredTypes validator ∧
      getPath ["createdAt"]
        (.object [ ("roles", .array [.string "student"]), ("email", .string "a@b.c"),
          ("createdAt", .string "2024-01-01") ]) = some (.string "2024-01-01") ∧
      (Bson.string "2024-01-01").typeOf ≠ .date ∧
      validates validator
        [ ("roles", .array [.string "student"]), ("email", .string "a@b.c"),
          ("createdAt", .string "2024-01-01") ] = false :=
  ⟨by decide, rfl, by decide,
    wrong_kind_rejected.2 _ ["createdAt"] .date (.string "2024-01-01") (by decide) rfl
      (by decide)⟩

/-- C10: in an accepted record every declared index has at most one key field that
holds an array; in particular `groupHomeId` is never an array, so the compound index
on `roles` and `groupHomeId` never covers two arrays, and inserting the record is
never refused for indexing parallel arrays. -/
theorem one_array_per_index (doc : Document) (h : validates validator doc = true) :
    (∀ idx ∈ indexDeclarations, (idx.arrayFields doc).length ≤ 1) ∧
      (∀ v, lookup "groupHomeId" doc = some v → v.isArray = false) ∧
      (∀ (stored : List Document) (name : String),
        (users stored).insert doc ≠ .error (.cannotIndexParallelArrays name)) := by
  refine ⟨accepted_arrayFields h, fun v hv => ?_, fun stored name => ?_⟩
  · obtain ⟨s, rfl⟩ := accepted_groupHomeId h hv
    rfl
  · have hfind : (users stored).indexes.find?
        (fun idx => decide (2 ≤ (idx.arrayFields doc).length)) = none :=
      accepted_find_parallel h
    simp only [Collection.insert, users_refuses, h, hfind]
    simp only [Bool.not_true, Bool.false_eq_true, if_false]
    split <;> simp

theorem one_array_per_index_witness :
    validates validator (exampleValidUserDocument 0 0) = true ∧
      (IndexSpec.arrayFields
        ⟨[("roles", 1), ("groupHomeId", 1)], false, false, "roles_groupHomeId_compound_index"⟩
        (exampleValidUserDocument 0 0)).length ≤ 1 ∧
      (Bson.string "gh_001").isArray = false :=
  ⟨rfl,
    (one_array_per_index (exampleValidUserDocument 0 0) rfl).1 _ (by simp [indexDeclarations]),
    (one_array_per_index (exampleValidUserDocument 0 0) rfl).2.1 _ rfl⟩

end EduLift
